import Mathlib

/-
Verification of the feature/target computation core of the GRXEUR data
preparation pipeline (src/experiment/scripts/03_pre_split_prep).

The embedding translates `targets.py` and `features.py` into Lean:
  * pandas Series of floats become `List ℚ`; float NaN becomes the
    `Entry.nan` constructor (or `none` in `Option ℚ` for intermediate
    series).  All arithmetic the source performs on finite values is
    rational-exact.
  * A DataFrame becomes `Table`: an ordered association list of columns.
    Column names are deterministic f-strings of the generating
    parameters in the source; they are embedded as the inductive `Col`
    (each constructor is one f-string pattern, e.g. `Col.ema s` is the
    string `ema_{s}m`; decimal rendering of the span makes the source
    strings injective in the parameter exactly as constructor injectivity
    does here).
  * Python in-place column assignment `df[c] = v` becomes `Table.setCol`
    (replace if present, append otherwise).  To settle the frame claim
    about `df = df.copy()`, an explicit heap of tables is modelled: both
    entry points are additionally embedded as heap transformers that
    allocate the copy and mutate only the fresh address.
-/

namespace Prep

/-- Column names of the pipeline. Every constructor is one of the concrete
column-name strings used by the source (f-strings over the span / period
parameter where one occurs): `timestamp`, `close`, `high`, `low`, `volume`,
`symbol`, `price_normalized`, `return_1m`, `ema_{s}m`, `ema_{s}m_normalized`,
`ema_{s}m_z`, `slope_ema_{s}m`, `slope_ema_{s}m_normalized`, `slope2_ema_{s}m`,
`slope2_ema_{s}m_normalized`, `price_z`, `price_range`, `minute_of_day`,
`day_of_week`, `hour_of_day`, `target_trend_{p}m`, `target_direction_{p}m`. -/
inductive Col where
  | timestamp : Col
  | close : Col
  | high : Col
  | low : Col
  | volume : Col
  | symbol : Col
  | price_normalized : Col
  | return_1m : Col
  | ema : ℕ → Col
  | ema_normalized : ℕ → Col
  | ema_z : ℕ → Col
  | slope_ema : ℕ → Col
  | slope_ema_normalized : ℕ → Col
  | slope2_ema : ℕ → Col
  | slope2_ema_normalized : ℕ → Col
  | price_z : Col
  | price_range : Col
  | minute_of_day : Col
  | day_of_week : Col
  | hour_of_day : Col
  | target_trend : ℕ → Col
  | target_direction : ℕ → Col
deriving DecidableEq, Repr

/-- One cell of a column.  `nan` is float NaN.  `val q` is the finite float
of exact rational value `q`.  `zval num var` is the defined (never-NaN) float
`num / (sqrt var + 1e-8)` produced by the rolling z-score columns: `num` is
the centred value and `var` the rolling sample variance (`var ≥ 0`, so the
square root is defined and the denominator is positive); the square root of a
rational is kept symbolic because it is in general irrational. -/
inductive Entry where
  | nan : Entry
  | val : ℚ → Entry
  | zval : ℚ → ℚ → Entry
deriving DecidableEq, Repr

/-- A cell is defined when it is not the NaN sentinel. -/
def Entry.defined : Entry → Bool
  | .nan => false
  | _ => true

/-- A DataFrame: ordered association list from column name to cells. -/
structure Table where
  cols : List (Col × List Entry)
deriving DecidableEq, Repr

instance : Inhabited Table := ⟨⟨[]⟩⟩

/-- Names of the columns, in order. -/
def Table.colNames (t : Table) : List Col := t.cols.map Prod.fst

/-- Value of the first binding of a name in an association list of columns
(empty if absent). -/
def lookupCol : List (Col × List Entry) → Col → List Entry
  | [], _ => []
  | p :: l, c => if p.1 = c then p.2 else lookupCol l c

/-- Replace every binding of a name with the given cells. -/
def replaceCol (l : List (Col × List Entry)) (c : Col) (vs : List Entry) :
    List (Col × List Entry) :=
  l.map fun p => if p.1 = c then (c, vs) else p

/-- Read a column (first binding of the name; empty if absent). -/
def Table.getCol (t : Table) (c : Col) : List Entry := lookupCol t.cols c

/-- Python `df[c] = vs`: replace the column if the name is present,
append it otherwise. -/
def Table.setCol (t : Table) (c : Col) (vs : List Entry) : Table :=
  if c ∈ t.colNames then ⟨replaceCol t.cols c vs⟩
  else ⟨t.cols ++ [(c, vs)]⟩

/-- Finite value of a cell (cells read back by the source are finite floats;
the default for the other constructors is irrelevant to every claim). -/
def Entry.toQ : Entry → ℚ
  | .val q => q
  | _ => 0

/-- Rational values of a column of finite floats. -/
def qvals (es : List Entry) : List ℚ := es.map Entry.toQ

/-- Wrap an optional value (`none` = NaN) as a cell. -/
def entryOfOpt : Option ℚ → Entry
  | none => Entry.nan
  | some q => Entry.val q

/-- Mean of a list, `np.mean` (empty list never occurs where used). -/
def mean (xs : List ℚ) : ℚ := xs.sum / xs.length

/-- Population variance, `np.var` (the numpy default `ddof=0`). -/
def npVar (xs : List ℚ) : ℚ := mean (xs.map fun v => (v - mean xs) ^ 2)

/-- The regression time axis `np.arange(period)` as rationals. -/
def xAxis (p : ℕ) : List ℚ := (List.range p).map (fun k => (Nat.cast k : ℚ))

/-- The slope the source computes for one forward window `y` of period `p`:
`np.sum(x_centered * y_centered) / (x_var * (period - 1))`
(targets.py line 61).  Note the denominator is `np.var(x) * (p - 1)`,
which is `Σ(x-x̄)² * (p-1)/p`, not the `Σ(x-x̄)²` of the source's own
comment on line 56. -/
def slopeAt (p : ℕ) (y : List ℚ) : ℚ :=
  let x := xAxis p
  let num := (List.zipWith (fun k v => (k - mean x) * (v - mean y)) x y).sum
  num / (npVar x * ((p : ℚ) - 1))

/-- `normalized_slope = slope / y_mean if y_mean > 0 else 0` (line 64). -/
def normSlopeAt (p : ℕ) (y : List ℚ) : ℚ :=
  if 0 < mean y then slopeAt p y / mean y else 0

/-- Forward window `prices[i+1 : i+1+period]` (line 51). -/
def fwdWindow (prices : List ℚ) (i p : ℕ) : List ℚ :=
  (prices.drop (i + 1)).take p

/-- Embedding of `compute_normalized_slope` (targets.py lines 16-67) for a
positive period (the source's contract, spec section 4.1): the output starts
as all-NaN; if `np.var(arange(period)) == 0` (period 1) it is returned as is;
otherwise each `i in range(n - period)` receives the normalized slope of its
forward window (the inner `len(y) < period` guard of line 53 is kept although
it cannot fire for those `i`). -/
def compute_normalized_slope (prices : List ℚ) (period : ℕ) : List (Option ℚ) :=
  if npVar (xAxis period) = 0 then List.replicate prices.length none
  else
    (List.range prices.length).map fun i =>
      if i + period < prices.length then
        if (fwdWindow prices i period).length < period then none
        else some (normSlopeAt period (fwdWindow prices i period))
      else none

/-- The direction dead-zone threshold `1e-8` (targets.py line 103). -/
def threshold : ℚ := 1 / 100000000

/-- One cell of `np.where(v > threshold, 1, np.where(v < -threshold, -1, 0))`
(lines 105-108).  A float comparison against NaN is false, so a NaN slope
falls through both tests to `0`. -/
def dirOf (v : Option ℚ) : ℤ :=
  match v with
  | some q => if threshold < q then 1 else if q < -threshold then -1 else 0
  | none => 0

/-- The column writes `add_normalized_trend_direction` performs, in order:
for each period, `target_trend_{p}m` then `target_direction_{p}m`
(targets.py lines 93-108). -/
def targetWrites (prices : List ℚ) (periods : List ℕ) : List (Col × List Entry) :=
  periods.flatMap fun p =>
    let slopes := compute_normalized_slope prices p
    [(Col.target_trend p, slopes.map entryOfOpt),
     (Col.target_direction p, slopes.map fun v => Entry.val ((dirOf v : ℤ) : ℚ))]

/-- Perform a list of column assignments left to right. -/
def applyWrites (t : Table) (ws : List (Col × List Entry)) : Table :=
  ws.foldl (fun tt cv => tt.setCol cv.1 cv.2) t

/-- Embedding of `add_normalized_trend_direction` (targets.py lines 70-112)
with the default `price_col="close"`: copies the frame and appends the two
target columns per requested period. -/
def add_normalized_trend_direction (t : Table) (periods : List ℕ) : Table :=
  applyWrites t (targetWrites (qvals (t.getCol Col.close)) periods)

/-- A loader-shaped input table: a timestamp column (epoch minutes) and a
close-price column, the representation `main.py` hands to the core. -/
def mkPriceTable (ts : List ℤ) (prices : List ℚ) : Table :=
  ⟨[(Col.timestamp, ts.map fun z => Entry.val (z : ℚ)),
    (Col.close, prices.map Entry.val)]⟩

/-- Cells of the last assignment to a name in a write list, if any. -/
def lastWrite : List (Col × List Entry) → Col → Option (List Entry)
  | [], _ => none
  | w :: ws, c =>
    match lastWrite ws c with
    | some vs => some vs
    | none => if w.1 = c then some w.2 else none

/-- The value a column has after a list of assignments: the last write of
that name if one exists, the original column of the table otherwise. -/
def lookupWrite (ws : List (Col × List Entry)) (t : Table) (c : Col) : List Entry :=
  (lastWrite ws c).getD (t.getCol c)

/-- The epsilon `1e-8` stabilizing denominators in features.py. -/
def eps : ℚ := 1 / 100000000

/-- The trailing rolling window ending at row `i`: the last `min (i+1) w`
values up to and including row `i`. -/
def windowEnd (xs : List ℚ) (w i : ℕ) : List ℚ := (xs.take (i + 1)).drop (i + 1 - w)

/-- `Series.rolling(window=w, min_periods=1).mean()`: with `min_periods=1`
every row of the output is the mean of its (nonempty) trailing window. -/
def rolling_mean (xs : List ℚ) (w : ℕ) : List ℚ :=
  (List.range xs.length).map fun i => mean (windowEnd xs w i)

/-- `Series.rolling(window=w, min_periods=1).std()` at the level of the
rolling sample variance (`ddof = 1`, the pandas default): NaN (`none`) when
the trailing window holds a single sample (the `0/0` of `ddof = 1`), else
`Σ (v - mean)² / (count - 1)`.  The float std is the square root of this
variance, so it is NaN exactly when the variance is. -/
def rolling_var (xs : List ℚ) (w : ℕ) : List (Option ℚ) :=
  (List.range xs.length).map fun i =>
    let ys := windowEnd xs w i
    if ys.length < 2 then none
    else some ((ys.map fun v => (v - mean ys) ^ 2).sum / ((ys.length : ℚ) - 1))

/-- Cells of `(xs - rolling_mean(xs, w)) / (rolling_std(xs, w) + 1e-8)`
(features.py lines 80-85 and 110-114): NaN where the rolling std is NaN,
else the `zval` cell carrying the centred value and the variance. -/
def zScoreEntries (xs : List ℚ) (w : ℕ) : List Entry :=
  (List.range xs.length).map fun i =>
    match (rolling_var xs w).getD i none with
    | none => Entry.nan
    | some v => Entry.zval (xs.getD i 0 - (rolling_mean xs w).getD i 0) v

/-- Tail of the `adjust=False` exponential average: each output is
`(1 - alpha) * previous + alpha * current`. -/
def emaAux (alpha prev : ℚ) : List ℚ → List ℚ
  | [] => []
  | y :: ys =>
    ((1 - alpha) * prev + alpha * y) :: emaAux alpha ((1 - alpha) * prev + alpha * y) ys

/-- `Series.ewm(span=..., adjust=False).mean()` as a function of the
smoothing factor: seeded with the first value, then the standard
recurrence. -/
def emaList (alpha : ℚ) : List ℚ → List ℚ
  | [] => []
  | y :: ys => y :: emaAux alpha y ys

/-- `Series.ewm(span=s, adjust=False).mean()`: the pandas smoothing factor
for a span is `alpha = 2 / (s + 1)` (features.py line 73). -/
def emaSpan (s : ℕ) (ys : List ℚ) : List ℚ := emaList (2 / ((s : ℚ) + 1)) ys

/-- `Series.diff()` on a series of finite floats: NaN at row 0, else the
difference with the previous row. -/
def diffQ (xs : List ℚ) : List (Option ℚ) :=
  (List.range xs.length).map fun i =>
    if i = 0 then none else some (xs.getD i 0 - xs.getD (i - 1) 0)

/-- `Series.diff()` on a series that may hold NaN: NaN at row 0 and wherever
either operand of the difference is NaN. -/
def diffO (xs : List (Option ℚ)) : List (Option ℚ) :=
  (List.range xs.length).map fun i =>
    if i = 0 then none
    else
      match xs.getD i none, xs.getD (i - 1) none with
      | some a, some b => some (a - b)
      | _, _ => none

/-- `Series.pct_change()`: NaN at row 0, else the relative change with the
previous row (features.py line 67). -/
def pct_change (xs : List ℚ) : List (Option ℚ) :=
  (List.range xs.length).map fun i =>
    if i = 0 then none
    else some ((xs.getD i 0 - xs.getD (i - 1) 0) / xs.getD (i - 1) 0)

/-- Cells of `series / (prices + 1e-8)` where the series may hold NaN. -/
def normByPrice (d : List (Option ℚ)) (prices : List ℚ) : List Entry :=
  List.zipWith (fun v pv => entryOfOpt (v.map fun q => q / (pv + eps))) d prices

/-- The column writes of the EMA loop (features.py lines 71-85), in order:
for each span, `ema_{s}m`, `ema_{s}m_normalized`, `ema_{s}m_z`. -/
def emaWrites (prices : List ℚ) (w : ℕ) (ema_periods : List ℕ) : List (Col × List Entry) :=
  ema_periods.flatMap fun s =>
    [(Col.ema s, (emaSpan s prices).map Entry.val),
     (Col.ema_normalized s,
      List.zipWith (fun ev pv => Entry.val (ev / pv - 1)) (emaSpan s prices) prices),
     (Col.ema_z s, zScoreEntries (emaSpan s prices) w)]

/-- The column names the EMA loop introduces, in order. -/
def emaWriteNames (ema_periods : List ℕ) : List Col :=
  ema_periods.flatMap fun s => [Col.ema s, Col.ema_normalized s, Col.ema_z s]

/-- The column writes of the slope loop (features.py lines 88-108).  The
source checks `if ema_col not in df.columns: continue` against the running
frame and reads `df[ema_col]` from it; at that point the frame's columns are
the input columns plus everything written so far, and the slope loop itself
never adds nor replaces a column named `ema_{s}m`, so the check and the read
are embedded against the state right after the EMA loop. -/
def slopeBase (t : Table) (prices : List ℚ) (w : ℕ) (ema_periods : List ℕ) (s : ℕ) :
    List (Option ℚ) :=
  diffQ (qvals (lookupWrite (emaWrites prices w ema_periods) t (Col.ema s)))

/-- Continuation of the slope-loop embedding: the four writes of one slope
span `s` whose EMA column exists: raw first difference, its normalization by
price, raw second difference, its normalization by price. -/
def slopeWrites (t : Table) (prices : List ℚ) (w : ℕ) (ema_periods slope_periods : List ℕ) :
    List (Col × List Entry) :=
  slope_periods.flatMap fun s =>
    if Col.ema s ∈ t.colNames ++ emaWriteNames ema_periods then
      [(Col.slope_ema s, (slopeBase t prices w ema_periods s).map entryOfOpt),
       (Col.slope_ema_normalized s, normByPrice (slopeBase t prices w ema_periods s) prices),
       (Col.slope2_ema s, (diffO (slopeBase t prices w ema_periods s)).map entryOfOpt),
       (Col.slope2_ema_normalized s,
        normByPrice (diffO (slopeBase t prices w ema_periods s)) prices)]
    else []

/-- The three calendar columns (features.py lines 122-148), derived from the
timestamp axis alone; timestamps are epoch minutes, so the minute of day is
the value modulo 1440, the hour its quotient by 60, and the day of week the
day count offset so that 0 is Monday (1970-01-01 was a Thursday). -/
def calendarWrites (tsq : List ℚ) : List (Col × List Entry) :=
  [(Col.minute_of_day, tsq.map fun q => Entry.val ((⌊q⌋ % 1440 : ℤ) : ℚ)),
   (Col.day_of_week, tsq.map fun q => Entry.val (((⌊q⌋ / 1440 + 3) % 7 : ℤ) : ℚ)),
   (Col.hour_of_day, tsq.map fun q => Entry.val ((⌊q⌋ % 1440 / 60 : ℤ) : ℚ))]

/-- The rational values of the frame's close column, `prices = df[price_col]`
with the default `price_col="close"`. -/
def pricesOf (t : Table) : List ℚ := qvals (t.getCol Col.close)

/-- All column writes `generate_features` performs (features.py lines 61-148)
with the default `price_col="close"`, in source order: `price_normalized`,
`return_1m`, the EMA loop, the slope loop, `price_z`, `price_range` when high
and low columns are present, and the calendar columns. -/
def featureWrites (t : Table) (ema_periods slope_periods : List ℕ) (w : ℕ) :
    List (Col × List Entry) :=
  [(Col.price_normalized,
      List.zipWith (fun pv m => Entry.val (pv / m - 1)) (pricesOf t)
        (rolling_mean (pricesOf t) w)),
   (Col.return_1m, (pct_change (pricesOf t)).map entryOfOpt)]
  ++ emaWrites (pricesOf t) w ema_periods
  ++ slopeWrites t (pricesOf t) w ema_periods slope_periods
  ++ [(Col.price_z, zScoreEntries (pricesOf t) w)]
  ++ (if Col.high ∈ t.colNames ∧ Col.low ∈ t.colNames then
       [(Col.price_range,
         List.zipWith (fun hl pv => Entry.val ((hl.1 - hl.2) / (pv + eps)))
           ((qvals (t.getCol Col.high)).zip (qvals (t.getCol Col.low))) (pricesOf t))]
      else [])
  ++ calendarWrites (qvals (t.getCol Col.timestamp))

/-- The `feature_list` accumulated by `generate_features`, in append order:
the raw `ema_{s}m`, `slope_ema_{s}m` and `slope2_ema_{s}m` columns are
written to the frame but never appended to this list. -/
def featureNames (t : Table) (ema_periods slope_periods : List ℕ) : List Col :=
  [Col.price_normalized, Col.return_1m]
  ++ ema_periods.flatMap (fun s => [Col.ema_normalized s, Col.ema_z s])
  ++ slope_periods.flatMap (fun s =>
      if Col.ema s ∈ t.colNames ++ emaWriteNames ema_periods then
        [Col.slope_ema_normalized s, Col.slope2_ema_normalized s]
      else [])
  ++ [Col.price_z]
  ++ (if Col.high ∈ t.colNames ∧ Col.low ∈ t.colNames then [Col.price_range] else [])
  ++ [Col.minute_of_day, Col.day_of_week, Col.hour_of_day]

/-- Embedding of `generate_features` (features.py lines 17-163) with the
defaults `price_col="close"`, `volume_col=None`.  The source accepts the
timestamp axis either as a column or as the frame's DatetimeIndex and raises
a `ValueError` when neither is present (`none` here); the two accepted
branches compute the same columns and both return timestamp as a plain
column, so they are one branch of the embedding, in which `Table` always
carries timestamp as a column.  The `sort_values` step is the identity under
the loader invariant that timestamps are strictly increasing (spec section
3), so it is not modelled. -/
def generate_features (t : Table) (ema_periods slope_periods : List ℕ) (w : ℕ) :
    Option (Table × List Col) :=
  if Col.timestamp ∈ t.colNames then
    some (applyWrites t (featureWrites t ema_periods slope_periods w),
          featureNames t ema_periods slope_periods)
  else none

/-- A mutable write `df[c] = vs` against the table stored at address `r` of
a heap of tables. -/
def heapWrite (h : List Table) (r : ℕ) (cv : Col × List Entry) : List Table :=
  h.set r ((h.getD r default).setCol cv.1 cv.2)

/-- A sequence of mutable writes against address `r`. -/
def heapWrites (h : List Table) (r : ℕ) (ws : List (Col × List Entry)) : List Table :=
  ws.foldl (fun hh cv => heapWrite hh r cv) h

/-- Heap-level embedding of `add_normalized_trend_direction`: the caller's
frame lives at address `r`; `df = df.copy()` (targets.py line 90) allocates a
fresh address holding the same table, and every subsequent column assignment
mutates the fresh address only.  Returns the heap and the address of the
result. -/
def add_normalized_trend_direction_heap (h : List Table) (r : ℕ) (periods : List ℕ) :
    List Table × ℕ :=
  (heapWrites (h ++ [h.getD r default]) h.length
    (targetWrites (qvals ((h.getD r default).getCol Col.close)) periods), h.length)

/-- Heap-level embedding of `generate_features`: `df = df.copy()`
(features.py line 39) allocates a fresh address and all column assignments
mutate it; on the missing-timestamp branch the source raises after the copy,
with the caller's frame untouched. -/
def generate_features_heap (h : List Table) (r : ℕ) (ema_periods slope_periods : List ℕ)
    (w : ℕ) : List Table × ℕ :=
  if Col.timestamp ∈ (h.getD r default).colNames then
    (heapWrites (h ++ [h.getD r default]) h.length
      (featureWrites (h.getD r default) ema_periods slope_periods w), h.length)
  else (h ++ [h.getD r default], h.length)

/-! Association-list and table lemmas. -/

theorem lookupCol_cons (p : Col × List Entry) (l : List (Col × List Entry)) (c : Col) :
    lookupCol (p :: l) c = if p.1 = c then p.2 else lookupCol l c := rfl

theorem replaceCol_cons (p : Col × List Entry) (l : List (Col × List Entry)) (c : Col)
    (vs : List Entry) :
    replaceCol (p :: l) c vs = (if p.1 = c then (c, vs) else p) :: replaceCol l c vs := rfl

theorem lookupCol_replaceCol_self : ∀ (l : List (Col × List Entry)) (c : Col)
    (vs : List Entry), c ∈ l.map Prod.fst → lookupCol (replaceCol l c vs) c = vs := by
  intro l
  induction l with
  | nil => intro c vs h; simp at h
  | cons p l ih =>
    intro c vs h
    rw [replaceCol_cons]
    by_cases hp : p.1 = c
    · rw [if_pos hp, lookupCol_cons, if_pos rfl]
    · have h' : c ∈ l.map Prod.fst := by
        rcases List.mem_map.1 h with ⟨q, hq, he⟩
        rcases List.mem_cons.1 hq with rfl | hq'
        · exact absurd he hp
        · exact List.mem_map.2 ⟨q, hq', he⟩
      rw [if_neg hp, lookupCol_cons, if_neg hp, ih c vs h']

theorem lookupCol_replaceCol_ne : ∀ (l : List (Col × List Entry)) (c : Col)
    (vs : List Entry) (c' : Col), c' ≠ c → lookupCol (replaceCol l c vs) c' = lookupCol l c' := by
  intro l
  induction l with
  | nil => intro c vs c' _; rfl
  | cons p l ih =>
    intro c vs c' h
    rw [replaceCol_cons, lookupCol_cons, lookupCol_cons]
    by_cases hp : p.1 = c
    · rw [if_pos hp]
      have h2 : ¬ p.1 = c' := by rw [hp]; exact fun e => h e.symm
      rw [if_neg (show ¬ (c, vs).1 = c' from fun e => h e.symm), if_neg h2, ih c vs c' h]
    · rw [if_neg hp]
      by_cases hq : p.1 = c'
      · rw [if_pos hq, if_pos hq]
      · rw [if_neg hq, if_neg hq, ih c vs c' h]

theorem lookupCol_append_singleton_ne : ∀ (l : List (Col × List Entry)) (c : Col)
    (vs : List Entry) (c' : Col), c' ≠ c → lookupCol (l ++ [(c, vs)]) c' = lookupCol l c' := by
  intro l
  induction l with
  | nil =>
    intro c vs c' h
    rw [List.nil_append, lookupCol_cons, if_neg (show ¬ (c, vs).1 = c' from fun e => h e.symm)]
  | cons p l ih =>
    intro c vs c' h
    rw [List.cons_append, lookupCol_cons, lookupCol_cons]
    by_cases hq : p.1 = c'
    · rw [if_pos hq, if_pos hq]
    · rw [if_neg hq, if_neg hq, ih c vs c' h]

theorem lookupCol_append_singleton_self : ∀ (l : List (Col × List Entry)) (c : Col)
    (vs : List Entry), c ∉ l.map Prod.fst → lookupCol (l ++ [(c, vs)]) c = vs := by
  intro l
  induction l with
  | nil => intro c vs _; rw [List.nil_append, lookupCol_cons, if_pos rfl]
  | cons p l ih =>
    intro c vs h
    have hp : ¬ p.1 = c := fun e => h (by simp [e])
    have h' : c ∉ l.map Prod.fst := fun hm => h (by simp [hm])
    rw [List.cons_append, lookupCol_cons, if_neg hp, ih c vs h']

theorem getCol_setCol_self (t : Table) (c : Col) (vs : List Entry) :
    (t.setCol c vs).getCol c = vs := by
  unfold Table.setCol
  split
  · next h => exact lookupCol_replaceCol_self t.cols c vs h
  · next h => exact lookupCol_append_singleton_self t.cols c vs h

theorem getCol_setCol_ne (t : Table) (c : Col) (vs : List Entry) (c' : Col) (h : c' ≠ c) :
    (t.setCol c vs).getCol c' = t.getCol c' := by
  unfold Table.setCol
  split
  · exact lookupCol_replaceCol_ne t.cols c vs c' h
  · exact lookupCol_append_singleton_ne t.cols c vs c' h

theorem map_fst_replaceCol (l : List (Col × List Entry)) (c : Col) (vs : List Entry) :
    (replaceCol l c vs).map Prod.fst = l.map fun p => if p.1 = c then c else p.1 := by
  induction l with
  | nil => rfl
  | cons p l ih =>
    by_cases hp : p.1 = c <;> simp [replaceCol, hp] <;> simpa [replaceCol] using ih

theorem mem_colNames_setCol (t : Table) (c : Col) (vs : List Entry) (c' : Col) :
    c' ∈ (t.setCol c vs).colNames ↔ c' ∈ t.colNames ∨ c' = c := by
  unfold Table.setCol
  split
  · next h =>
    show c' ∈ (replaceCol t.cols c vs).map Prod.fst ↔ _
    rw [map_fst_replaceCol]
    constructor
    · intro hm
      obtain ⟨p, hp, he⟩ := List.mem_map.1 hm
      by_cases hc : p.1 = c
      · right; rw [if_pos hc] at he; exact he.symm
      · left; rw [if_neg hc] at he; exact List.mem_map.2 ⟨p, hp, he⟩
    · intro hm
      rcases hm with hm | rfl
      · obtain ⟨p, hp, he⟩ := List.mem_map.1 hm
        refine List.mem_map.2 ⟨p, hp, ?_⟩
        by_cases hc : p.1 = c
        · rw [if_pos hc, ← he, hc]
        · rw [if_neg hc, he]
      · obtain ⟨p, hp, he⟩ := List.mem_map.1 h
        exact List.mem_map.2 ⟨p, hp, by rw [if_pos he]⟩
  · next h =>
    show c' ∈ (t.cols ++ [(c, vs)]).map Prod.fst ↔ _
    simp [Table.colNames]

theorem applyWrites_nil (t : Table) : applyWrites t [] = t := rfl

theorem applyWrites_cons (t : Table) (cv : Col × List Entry) (ws : List (Col × List Entry)) :
    applyWrites t (cv :: ws) = applyWrites (t.setCol cv.1 cv.2) ws := rfl

theorem applyWrites_append (t : Table) (a b : List (Col × List Entry)) :
    applyWrites t (a ++ b) = applyWrites (applyWrites t a) b := by
  simp [applyWrites]

theorem getCol_applyWrites_not_written : ∀ (ws : List (Col × List Entry)) (t : Table)
    (c : Col), (∀ w ∈ ws, w.1 ≠ c) → (applyWrites t ws).getCol c = t.getCol c := by
  intro ws
  induction ws with
  | nil => intro t c _; rfl
  | cons w ws ih =>
    intro t c h
    rw [applyWrites_cons, ih _ c (fun x hx => h x (List.mem_cons_of_mem _ hx)),
      getCol_setCol_ne _ _ _ _ (Ne.symm (h w (List.mem_cons_self _ _)))]

theorem mem_colNames_applyWrites : ∀ (ws : List (Col × List Entry)) (t : Table) (c' : Col),
    c' ∈ (applyWrites t ws).colNames ↔ c' ∈ t.colNames ∨ ∃ w ∈ ws, w.1 = c' := by
  intro ws
  induction ws with
  | nil => intro t c'; simp [applyWrites]
  | cons w ws ih =>
    intro t c'
    rw [applyWrites_cons, ih, mem_colNames_setCol]
    constructor
    · rintro ((h | rfl) | ⟨x, hx, he⟩)
      · exact Or.inl h
      · exact Or.inr ⟨w, List.mem_cons_self _ _, rfl⟩
      · exact Or.inr ⟨x, List.mem_cons_of_mem _ hx, he⟩
    · rintro (h | ⟨x, hx, he⟩)
      · exact Or.inl (Or.inl h)
      · rcases List.mem_cons.1 hx with rfl | hx'
        · exact Or.inl (Or.inr he.symm)
        · exact Or.inr ⟨x, hx', he⟩

theorem lastWrite_eq_none : ∀ (ws : List (Col × List Entry)) (c : Col),
    (∀ w ∈ ws, w.1 ≠ c) → lastWrite ws c = none := by
  intro ws
  induction ws with
  | nil => intro c _; rfl
  | cons w ws ih =>
    intro c h
    unfold lastWrite
    rw [ih c (fun x hx => h x (List.mem_cons_of_mem _ hx)),
      if_neg (h w (List.mem_cons_self _ _))]

theorem lastWrite_eq_some : ∀ (ws : List (Col × List Entry)) (c : Col) (vs : List Entry),
    (∃ w ∈ ws, w.1 = c) → (∀ w ∈ ws, w.1 = c → w.2 = vs) → lastWrite ws c = some vs := by
  intro ws
  induction ws with
  | nil => intro c vs hex _; simp at hex
  | cons w ws ih =>
    intro c vs hex hall
    by_cases hex' : ∃ x ∈ ws, x.1 = c
    · unfold lastWrite
      rw [ih c vs hex' (fun y hy hyc => hall y (List.mem_cons_of_mem _ hy) hyc)]
    · have hn : lastWrite ws c = none :=
        lastWrite_eq_none ws c (fun y hy hyc => hex' ⟨y, hy, hyc⟩)
      unfold lastWrite
      rw [hn]
      obtain ⟨x, hx, hxc⟩ := hex
      rcases List.mem_cons.1 hx with rfl | hx'
      · rw [if_pos hxc, hall x (List.mem_cons_self _ _) hxc]
      · exact absurd ⟨x, hx', hxc⟩ hex'

theorem lookupWrite_cons (cv : Col × List Entry) (ws : List (Col × List Entry)) (t : Table)
    (c : Col) : lookupWrite (cv :: ws) t c = lookupWrite ws (t.setCol cv.1 cv.2) c := by
  unfold lookupWrite
  cases h : lastWrite ws c with
  | some vs => simp [lastWrite, h]
  | none =>
    by_cases hw : cv.1 = c
    · simp [lastWrite, h, hw]
      rw [← hw, getCol_setCol_self]
    · simp [lastWrite, h, hw]
      rw [getCol_setCol_ne _ _ _ _ (fun e => hw e.symm)]

theorem getCol_applyWrites : ∀ (ws : List (Col × List Entry)) (t : Table) (c : Col),
    (applyWrites t ws).getCol c = lookupWrite ws t c := by
  intro ws
  induction ws with
  | nil => intro t c; rfl
  | cons w ws ih => intro t c; rw [applyWrites_cons, ih, lookupWrite_cons]

theorem lookupWrite_eq_of (ws : List (Col × List Entry)) (t : Table) (c : Col)
    (vs : List Entry) (hex : ∃ w ∈ ws, w.1 = c) (hall : ∀ w ∈ ws, w.1 = c → w.2 = vs) :
    lookupWrite ws t c = vs := by
  unfold lookupWrite
  rw [lastWrite_eq_some ws c vs hex hall]
  rfl

theorem lookupWrite_not_written (ws : List (Col × List Entry)) (t : Table) (c : Col)
    (h : ∀ w ∈ ws, w.1 ≠ c) : lookupWrite ws t c = t.getCol c := by
  unfold lookupWrite
  rw [lastWrite_eq_none ws c h]
  rfl

/-! List access helper lemmas. -/

theorem getD_map_of_lt {α β : Type} (f : α → β) (l : List α) (i : ℕ) (h : i < l.length)
    (d : β) (d' : α) : (l.map f).getD i d = f (l.getD i d') := by
  rw [List.getD_eq_getElem?_getD, List.getElem?_map, List.getElem?_eq_getElem h,
    List.getD_eq_getElem?_getD, List.getElem?_eq_getElem h]
  rfl

theorem getD_range_map {β : Type} (f : ℕ → β) (n i : ℕ) (h : i < n) (d : β) :
    ((List.range n).map f).getD i d = f i := by
  rw [getD_map_of_lt f _ i (by simpa using h) d 0]
  congr 1
  rw [List.getD_eq_getElem?_getD, List.getElem?_range h]
  rfl

theorem getD_zipWith_of_lt {α β γ : Type} (f : α → β → γ) (l₁ : List α) (l₂ : List β)
    (i : ℕ) (h₁ : i < l₁.length) (h₂ : i < l₂.length) (d : γ) (d₁ : α) (d₂ : β) :
    (List.zipWith f l₁ l₂).getD i d = f (l₁.getD i d₁) (l₂.getD i d₂) := by
  rw [List.getD_eq_getElem?_getD, List.getElem?_zipWith, List.getElem?_eq_getElem h₁,
    List.getElem?_eq_getElem h₂, List.getD_eq_getElem?_getD, List.getElem?_eq_getElem h₁,
    List.getD_eq_getElem?_getD, List.getElem?_eq_getElem h₂]
  rfl

theorem toQ_val (q : ℚ) : (Entry.val q).toQ = q := rfl

theorem qvals_map_val (l : List ℚ) : qvals (l.map Entry.val) = l := by
  induction l with
  | nil => rfl
  | cons a l ih => simp only [qvals, List.map_cons] at ih ⊢; rw [ih]; rfl

theorem entryOfOpt_eq_val_iff (v : Option ℚ) (x : ℚ) :
    entryOfOpt v = Entry.val x ↔ v = some x := by
  cases v <;> simp [entryOfOpt]

theorem entryOfOpt_none : entryOfOpt none = Entry.nan := rfl

/-! Facts about the regression axis and `compute_normalized_slope`. -/

theorem length_xAxis (p : ℕ) : (xAxis p).length = p := by
  rw [xAxis, List.length_map, List.length_range]

theorem mem_xAxis (k p : ℕ) (h : k < p) : ((k : ℚ)) ∈ xAxis p := by
  rw [xAxis]
  exact List.mem_map.2 ⟨k, List.mem_range.2 h, rfl⟩

theorem npVar_xAxis_pos (p : ℕ) (hp : 2 ≤ p) : 0 < npVar (xAxis p) := by
  have hnn : ∀ x ∈ (xAxis p).map (fun v => (v - mean (xAxis p)) ^ 2), (0 : ℚ) ≤ x := by
    intro x hx
    obtain ⟨v, _, rfl⟩ := List.mem_map.1 hx
    positivity
  have h0 : ((0 : ℚ) - mean (xAxis p)) ^ 2 ∈ (xAxis p).map (fun v => (v - mean (xAxis p)) ^ 2) :=
    List.mem_map.2 ⟨0, by simpa using mem_xAxis 0 p (by omega), rfl⟩
  have h1 : ((1 : ℚ) - mean (xAxis p)) ^ 2 ∈ (xAxis p).map (fun v => (v - mean (xAxis p)) ^ 2) :=
    List.mem_map.2 ⟨1, by simpa using mem_xAxis 1 p (by omega), rfl⟩
  have hsum : 0 < ((xAxis p).map (fun v => (v - mean (xAxis p)) ^ 2)).sum := by
    rcases eq_or_ne (mean (xAxis p)) 0 with hm | hm
    · have hpos : (0 : ℚ) < ((1 : ℚ) - mean (xAxis p)) ^ 2 := by rw [hm]; norm_num
      exact lt_of_lt_of_le hpos (List.single_le_sum hnn _ h1)
    · have hne : ((0 : ℚ) - mean (xAxis p)) ^ 2 ≠ 0 := by
        simpa using pow_ne_zero 2 (sub_ne_zero.2 (Ne.symm hm))
      have hpos : (0 : ℚ) < ((0 : ℚ) - mean (xAxis p)) ^ 2 :=
        (sq_nonneg _).lt_of_ne (Ne.symm hne)
      exact lt_of_lt_of_le hpos (List.single_le_sum hnn _ h0)
  have hlen : (((xAxis p).map (fun v => (v - mean (xAxis p)) ^ 2)).length : ℚ) = (p : ℚ) := by
    simp [length_xAxis]
  rw [npVar, mean, hlen]
  have hp' : (0 : ℚ) < (p : ℚ) := by exact_mod_cast (by omega : 0 < p)
  exact div_pos hsum hp'

theorem length_fwdWindow (prices : List ℚ) (i p : ℕ) (h : i + p < prices.length) :
    (fwdWindow prices i p).length = p := by
  simp only [fwdWindow, List.length_take, List.length_drop]
  omega

theorem length_cns (prices : List ℚ) (p : ℕ) :
    (compute_normalized_slope prices p).length = prices.length := by
  unfold compute_normalized_slope
  split <;> simp

theorem cns_getD (prices : List ℚ) (p i : ℕ) (hp : 2 ≤ p) (hi : i < prices.length) :
    (compute_normalized_slope prices p).getD i none =
      if i + p < prices.length then some (normSlopeAt p (fwdWindow prices i p)) else none := by
  unfold compute_normalized_slope
  rw [if_neg (ne_of_gt (npVar_xAxis_pos p hp)), getD_range_map _ _ _ hi]
  by_cases h : i + p < prices.length
  · rw [if_pos h, if_pos h, if_neg (by rw [length_fwdWindow prices i p h]; omega)]
  · rw [if_neg h, if_neg h]

theorem cns_getD_none (prices : List ℚ) (p i : ℕ) (_hp : 1 ≤ p) (hi : i < prices.length)
    (hpi : prices.length ≤ i + p) : (compute_normalized_slope prices p).getD i none = none := by
  unfold compute_normalized_slope
  split
  · rw [List.getD_eq_getElem?_getD, List.getElem?_replicate]
    split <;> rfl
  · rw [getD_range_map _ _ _ hi, if_neg (by omega)]

theorem cns_one (prices : List ℚ) :
    compute_normalized_slope prices 1 = List.replicate prices.length none := by
  unfold compute_normalized_slope
  rw [if_pos]
  norm_num [npVar, xAxis, mean, List.range_succ]

/-! Reading the base table and the target columns. -/

theorem getCol_mkPriceTable_close (ts : List ℤ) (prices : List ℚ) :
    (mkPriceTable ts prices).getCol Col.close = prices.map Entry.val := by
  rw [mkPriceTable, Table.getCol, lookupCol_cons, if_neg (by simp), lookupCol_cons, if_pos rfl]

theorem getCol_mkPriceTable_timestamp (ts : List ℤ) (prices : List ℚ) :
    (mkPriceTable ts prices).getCol Col.timestamp = ts.map fun z => Entry.val (z : ℚ) := by
  rw [mkPriceTable, Table.getCol, lookupCol_cons, if_pos rfl]

theorem colNames_mkPriceTable (ts : List ℤ) (prices : List ℚ) :
    (mkPriceTable ts prices).colNames = [Col.timestamp, Col.close] := rfl

theorem qvals_close_mkPriceTable (ts : List ℤ) (prices : List ℚ) :
    qvals ((mkPriceTable ts prices).getCol Col.close) = prices := by
  rw [getCol_mkPriceTable_close, qvals_map_val]

theorem targetWrites_single (prices : List ℚ) (p : ℕ) :
    targetWrites prices [p] =
      [(Col.target_trend p, (compute_normalized_slope prices p).map entryOfOpt),
       (Col.target_direction p,
        (compute_normalized_slope prices p).map fun v => Entry.val ((dirOf v : ℤ) : ℚ))] := by
  simp [targetWrites]

theorem add_single_getCol_trend (ts : List ℤ) (prices : List ℚ) (p : ℕ) :
    (add_normalized_trend_direction (mkPriceTable ts prices) [p]).getCol (Col.target_trend p) =
      (compute_normalized_slope prices p).map entryOfOpt := by
  rw [add_normalized_trend_direction, qvals_close_mkPriceTable, targetWrites_single,
    applyWrites_cons, applyWrites_cons, applyWrites_nil,
    getCol_setCol_ne _ _ _ _ (by simp), getCol_setCol_self]

theorem add_single_getCol_direction (ts : List ℤ) (prices : List ℚ) (p : ℕ) :
    (add_normalized_trend_direction (mkPriceTable ts prices) [p]).getCol
        (Col.target_direction p) =
      (compute_normalized_slope prices p).map fun v => Entry.val ((dirOf v : ℤ) : ℚ) := by
  rw [add_normalized_trend_direction, qvals_close_mkPriceTable, targetWrites_single,
    applyWrites_cons, applyWrites_cons, applyWrites_nil, getCol_setCol_self]

/-! Claim theorems for the Trend Target Computor. -/

/-- C1: the claim states that the computed slope is the OLS slope
Σ((x-x̄)(y-ȳ)) / Σ((x-x̄)²), which the source's own comment (targets.py line
56) also states, and that on an exactly linear window prices = a + b·k the
normalized slope is b / mean(window).  On prices [1, 1, 2] with period 2 the
forward window of row 0 is [1, 2] = 1 + 1·k, so the claimed value is
1 / mean [1, 2] = 2/3; the code divides by `np.var(x) * (period - 1)` =
Σ((x-x̄)²)·(p-1)/p instead of Σ((x-x̄)²) (targets.py line 61) and returns
4/3 = (p/(p-1)) · 2/3. -/
theorem C1_regression_slope_eval :
    compute_normalized_slope [1, 1, 2] 2 = [some (4 / 3), none, none] ∧
      (4 / 3 : ℚ) ≠ 1 / mean [1, 2] := by
  constructor
  · norm_num [compute_normalized_slope, npVar, mean, xAxis, fwdWindow, normSlopeAt, slopeAt,
      List.range_succ]
  · norm_num [mean]

/-- C2 counterexample: for prices [1, 2, 3] and period 2, row 1 lacks 2
future rows; the claim says both outputs are the NaN sentinel there, but the
direction column holds the defined integer value 0, because the NaN
comparisons in `np.where` are both false. -/
theorem C2_cex_direction_not_nan :
    ((add_normalized_trend_direction (mkPriceTable [0, 1, 2] [1, 2, 3]) [2]).getCol
        (Col.target_direction 2)).getD 1 Entry.nan = Entry.val 0 ∧
      Entry.val (0 : ℚ) ≠ Entry.nan := by
  refine ⟨?_, fun h => Entry.noConfusion h⟩
  rw [add_single_getCol_direction]
  norm_num [compute_normalized_slope, npVar, mean, xAxis, List.range_succ, List.getD, dirOf]

/-- C2 (amended): for every price series, period p ≥ 1 and row i with fewer
than p future rows (prices.length ≤ i + p), the continuous trend target is
the NaN sentinel as claimed, but the categorical direction target is the
defined value 0, not NaN: the `np.where` comparisons against NaN are false
and fall through to the final 0 branch. -/
theorem C2_insufficient_future (ts : List ℤ) (prices : List ℚ) (p i : ℕ) (hp : 1 ≤ p)
    (hi : i < prices.length) (hpi : prices.length ≤ i + p) :
    ((add_normalized_trend_direction (mkPriceTable ts prices) [p]).getCol
        (Col.target_trend p)).getD i (Entry.val 0) = Entry.nan ∧
      ((add_normalized_trend_direction (mkPriceTable ts prices) [p]).getCol
        (Col.target_direction p)).getD i Entry.nan = Entry.val 0 := by
  have hlen : i < (compute_normalized_slope prices p).length := by rw [length_cns]; exact hi
  constructor
  · rw [add_single_getCol_trend, getD_map_of_lt _ _ _ hlen _ none,
      cns_getD_none prices p i hp hi hpi]
    rfl
  · rw [add_single_getCol_direction, getD_map_of_lt _ _ _ hlen _ none,
      cns_getD_none prices p i hp hi hpi]
    norm_num [dirOf]

/-- Witness for C2_insufficient_future at prices [1, 2, 3], period 2, row 1. -/
theorem C2_insufficient_future_witness :
    ((add_normalized_trend_direction (mkPriceTable [0, 1, 2] [1, 2, 3]) [2]).getCol
        (Col.target_trend 2)).getD 1 (Entry.val 0) = Entry.nan ∧
      ((add_normalized_trend_direction (mkPriceTable [0, 1, 2] [1, 2, 3]) [2]).getCol
        (Col.target_direction 2)).getD 1 Entry.nan = Entry.val 0 :=
  C2_insufficient_future [0, 1, 2] [1, 2, 3] 2 1 (by norm_num) (by norm_num) (by norm_num)

/-- C3 counterexample: for the degenerate period 1 on prices [1, 2], the
trend column is all NaN as claimed, but the direction column is all
(defined) zeros, not NaN. -/
theorem C3_cex_direction_not_nan :
    (add_normalized_trend_direction (mkPriceTable [0, 1] [1, 2]) [1]).getCol
        (Col.target_direction 1) = [Entry.val 0, Entry.val 0] ∧
      Entry.val (0 : ℚ) ≠ Entry.nan := by
  refine ⟨?_, fun h => Entry.noConfusion h⟩
  rw [add_single_getCol_direction, cns_one]
  norm_num [List.replicate, dirOf]

/-- C3 (amended): for period 1 the early `x_var == 0` return makes the trend
column all-NaN without any division error, as claimed; but the direction
column is the defined constant 0, not NaN, because `np.where` maps the NaN
rows to its final 0 branch. -/
theorem C3_degenerate_period_one (ts : List ℤ) (prices : List ℚ) :
    (add_normalized_trend_direction (mkPriceTable ts prices) [1]).getCol (Col.target_trend 1) =
        List.replicate prices.length Entry.nan ∧
      (add_normalized_trend_direction (mkPriceTable ts prices) [1]).getCol
        (Col.target_direction 1) = List.replicate prices.length (Entry.val 0) := by
  constructor
  · rw [add_single_getCol_trend, cns_one, List.map_replicate]
    rfl
  · rw [add_single_getCol_direction, cns_one, List.map_replicate]
    norm_num [dirOf]

/-- C5: for every period p ≥ 2 and positive price series longer than p, the
trend target column is the NaN sentinel exactly on the last p rows
(positions ≥ length - p) and a defined value everywhere before them. -/
theorem C5_trend_nan_exactly_last (ts : List ℤ) (prices : List ℚ) (p : ℕ) (hp : 2 ≤ p)
    (hn : p < prices.length) (_hpos : ∀ q ∈ prices, 0 < q) (i : ℕ) (hi : i < prices.length) :
    (((add_normalized_trend_direction (mkPriceTable ts prices) [p]).getCol
        (Col.target_trend p)).getD i (Entry.val 0) = Entry.nan ↔ prices.length - p ≤ i) := by
  have hlen : i < (compute_normalized_slope prices p).length := by rw [length_cns]; exact hi
  rw [add_single_getCol_trend, getD_map_of_lt _ _ _ hlen _ none, cns_getD prices p i hp hi]
  by_cases h : i + p < prices.length
  · rw [if_pos h]
    exact iff_of_false (by simp [entryOfOpt]) (by omega)
  · rw [if_neg h]
    exact iff_of_true rfl (by omega)

/-- Witness for C5_trend_nan_exactly_last at prices [1, 2, 3, 4], period 2,
row 3 (a trailing row). -/
theorem C5_trend_nan_exactly_last_witness :
    (((add_normalized_trend_direction (mkPriceTable [0, 1, 2, 3] [1, 2, 3, 4]) [2]).getCol
        (Col.target_trend 2)).getD 3 (Entry.val 0) = Entry.nan ↔
      ([1, 2, 3, 4] : List ℚ).length - 2 ≤ 3) :=
  C5_trend_nan_exactly_last [0, 1, 2, 3] [1, 2, 3, 4] 2 (by norm_num) (by norm_num)
    (by intro q hq; rcases List.mem_cons.1 hq with rfl | hq; · norm_num
        rcases List.mem_cons.1 hq with rfl | hq; · norm_num
        rcases List.mem_cons.1 hq with rfl | hq; · norm_num
        rcases List.mem_cons.1 hq with rfl | hq; · norm_num
        simp at hq)
    3 (by norm_num)

/-- C6: at every row whose trend target is a defined value x, the direction
target equals +1 if x is strictly above the 1e-8 threshold, -1 if strictly
below -1e-8, and 0 inside the dead-zone. -/
theorem C6_direction_matches_sign (ts : List ℤ) (prices : List ℚ) (p i : ℕ) (x : ℚ)
    (hi : i < prices.length)
    (hx : ((add_normalized_trend_direction (mkPriceTable ts prices) [p]).getCol
        (Col.target_trend p)).getD i Entry.nan = Entry.val x) :
    ((add_normalized_trend_direction (mkPriceTable ts prices) [p]).getCol
        (Col.target_direction p)).getD i Entry.nan =
      Entry.val (if threshold < x then 1 else if x < -threshold then -1 else 0) := by
  have hlen : i < (compute_normalized_slope prices p).length := by rw [length_cns]; exact hi
  rw [add_single_getCol_trend, getD_map_of_lt _ _ _ hlen _ none] at hx
  have hsome : (compute_normalized_slope prices p).getD i none = some x :=
    (entryOfOpt_eq_val_iff _ _).1 hx
  rw [add_single_getCol_direction, getD_map_of_lt _ _ _ hlen _ none, hsome]
  by_cases h1 : threshold < x
  · simp [dirOf, h1]
  · by_cases h2 : x < -threshold <;> simp [dirOf, h1, h2]

/-! Shape lemmas for the write blocks of `generate_features`. -/

theorem mem_calendarWrites_fst (tsq : List ℚ) (x : Col × List Entry)
    (hx : x ∈ calendarWrites tsq) :
    x.1 = Col.minute_of_day ∨ x.1 = Col.day_of_week ∨ x.1 = Col.hour_of_day := by
  rcases List.mem_cons.1 hx with rfl | hx
  · exact Or.inl rfl
  rcases List.mem_cons.1 hx with rfl | hx
  · exact Or.inr (Or.inl rfl)
  rcases List.mem_cons.1 hx with rfl | hx
  · exact Or.inr (Or.inr rfl)
  · simp at hx

theorem mem_rangeBlock_fst {P : Prop} [Decidable P] (v : List Entry) (x : Col × List Entry)
    (hx : x ∈ (if P then [(Col.price_range, v)] else ([] : List (Col × List Entry)))) :
    x.1 = Col.price_range := by
  split at hx
  · rcases List.mem_cons.1 hx with rfl | hx
    · rfl
    · simp at hx
  · simp at hx

theorem mem_emaWrites (prices : List ℚ) (w : ℕ) (ema : List ℕ) (x : Col × List Entry)
    (hx : x ∈ emaWrites prices w ema) :
    ∃ s ∈ ema,
      x = (Col.ema s, (emaSpan s prices).map Entry.val) ∨
      x = (Col.ema_normalized s,
        List.zipWith (fun ev pv => Entry.val (ev / pv - 1)) (emaSpan s prices) prices) ∨
      x = (Col.ema_z s, zScoreEntries (emaSpan s prices) w) := by
  obtain ⟨s, hs, hmem⟩ := List.mem_flatMap.1 hx
  refine ⟨s, hs, ?_⟩
  rcases List.mem_cons.1 hmem with rfl | hmem
  · exact Or.inl rfl
  rcases List.mem_cons.1 hmem with rfl | hmem
  · exact Or.inr (Or.inl rfl)
  rcases List.mem_cons.1 hmem with rfl | hmem
  · exact Or.inr (Or.inr rfl)
  · simp at hmem

theorem mem_slopeWrites (t : Table) (prices : List ℚ) (w : ℕ) (ema sl : List ℕ)
    (x : Col × List Entry) (hx : x ∈ slopeWrites t prices w ema sl) :
    ∃ s ∈ sl, Col.ema s ∈ t.colNames ++ emaWriteNames ema ∧
      (x = (Col.slope_ema s, (slopeBase t prices w ema s).map entryOfOpt) ∨
       x = (Col.slope_ema_normalized s, normByPrice (slopeBase t prices w ema s) prices) ∨
       x = (Col.slope2_ema s, (diffO (slopeBase t prices w ema s)).map entryOfOpt) ∨
       x = (Col.slope2_ema_normalized s,
        normByPrice (diffO (slopeBase t prices w ema s)) prices)) := by
  obtain ⟨s, hs, hmem⟩ := List.mem_flatMap.1 hx
  refine ⟨s, hs, ?_⟩
  split at hmem
  · next hcond =>
    refine ⟨hcond, ?_⟩
    rcases List.mem_cons.1 hmem with rfl | hmem
    · exact Or.inl rfl
    rcases List.mem_cons.1 hmem with rfl | hmem
    · exact Or.inr (Or.inl rfl)
    rcases List.mem_cons.1 hmem with rfl | hmem
    · exact Or.inr (Or.inr (Or.inl rfl))
    rcases List.mem_cons.1 hmem with rfl | hmem
    · exact Or.inr (Or.inr (Or.inr rfl))
    · simp at hmem
  · simp at hmem

theorem mem_emaWriteNames (ema : List ℕ) (c : Col) :
    c ∈ emaWriteNames ema ↔
      ∃ s ∈ ema, c = Col.ema s ∨ c = Col.ema_normalized s ∨ c = Col.ema_z s := by
  constructor
  · intro h
    obtain ⟨s, hs, hmem⟩ := List.mem_flatMap.1 h
    refine ⟨s, hs, ?_⟩
    rcases List.mem_cons.1 hmem with rfl | hmem
    · exact Or.inl rfl
    rcases List.mem_cons.1 hmem with rfl | hmem
    · exact Or.inr (Or.inl rfl)
    rcases List.mem_cons.1 hmem with rfl | hmem
    · exact Or.inr (Or.inr rfl)
    · simp at hmem
  · rintro ⟨s, hs, rfl | rfl | rfl⟩ <;>
      exact List.mem_flatMap.2 ⟨s, hs, by simp⟩

theorem ema_mem_emaWriteNames (ema : List ℕ) (s : ℕ) (hs : s ∈ ema) :
    Col.ema s ∈ emaWriteNames ema :=
  (mem_emaWriteNames ema _).2 ⟨s, hs, Or.inl rfl⟩

theorem ema_not_mem_emaWriteNames (ema : List ℕ) (s : ℕ) (hs : s ∉ ema) :
    Col.ema s ∉ emaWriteNames ema := by
  intro h
  obtain ⟨u, hu, h | h | h⟩ := (mem_emaWriteNames ema _).1 h <;> cases h
  exact hs hu

/-! Reading columns of the table `generate_features` builds. -/

theorem gf_mkPriceTable (ts : List ℤ) (prices : List ℚ) (ema sl : List ℕ) (w : ℕ) :
    generate_features (mkPriceTable ts prices) ema sl w =
      some (applyWrites (mkPriceTable ts prices)
              (featureWrites (mkPriceTable ts prices) ema sl w),
            featureNames (mkPriceTable ts prices) ema sl) := by
  rw [generate_features, if_pos]
  rw [colNames_mkPriceTable]
  simp

theorem pricesOf_mkPriceTable (ts : List ℤ) (prices : List ℚ) :
    pricesOf (mkPriceTable ts prices) = prices := by
  rw [pricesOf, qvals_close_mkPriceTable]

theorem getCol_featureTable_price_normalized (t : Table) (ema sl : List ℕ) (w : ℕ) :
    (applyWrites t (featureWrites t ema sl w)).getCol Col.price_normalized =
      List.zipWith (fun pv m => Entry.val (pv / m - 1)) (pricesOf t)
        (rolling_mean (pricesOf t) w) := by
  rw [featureWrites, applyWrites_append, applyWrites_append, applyWrites_append,
    applyWrites_append, applyWrites_append]
  rw [getCol_applyWrites_not_written _ _ _ (by
    intro x hx
    rcases mem_calendarWrites_fst _ x hx with h | h | h <;> rw [h] <;> simp)]
  rw [getCol_applyWrites_not_written _ _ _ (by
    intro x hx
    rw [mem_rangeBlock_fst _ x hx]
    simp)]
  rw [getCol_applyWrites_not_written _ _ _ (by
    intro x hx
    rcases List.mem_cons.1 hx with rfl | hx
    · simp
    · simp at hx)]
  rw [getCol_applyWrites_not_written _ _ _ (by
    intro x hx
    obtain ⟨u, _, _, h | h | h | h⟩ := mem_slopeWrites _ _ _ _ _ x hx <;> rw [h] <;> simp)]
  rw [getCol_applyWrites_not_written _ _ _ (by
    intro x hx
    obtain ⟨u, _, h | h | h⟩ := mem_emaWrites _ _ _ x hx <;> rw [h] <;> simp)]
  rw [applyWrites_cons, applyWrites_cons, applyWrites_nil,
    getCol_setCol_ne _ _ _ _ (by simp), getCol_setCol_self]

theorem getCol_featureTable_price_z (t : Table) (ema sl : List ℕ) (w : ℕ) :
    (applyWrites t (featureWrites t ema sl w)).getCol Col.price_z =
      zScoreEntries (pricesOf t) w := by
  rw [featureWrites, applyWrites_append, applyWrites_append, applyWrites_append]
  rw [getCol_applyWrites_not_written _ _ _ (by
    intro x hx
    rcases mem_calendarWrites_fst _ x hx with h | h | h <;> rw [h] <;> simp)]
  rw [getCol_applyWrites_not_written _ _ _ (by
    intro x hx
    rw [mem_rangeBlock_fst _ x hx]
    simp)]
  rw [applyWrites_cons, applyWrites_nil, getCol_setCol_self]

theorem getCol_featureTable_ema (t : Table) (ema sl : List ℕ) (w : ℕ) (s : ℕ)
    (hs : s ∈ ema) :
    (applyWrites t (featureWrites t ema sl w)).getCol (Col.ema s) =
      (emaSpan s (pricesOf t)).map Entry.val := by
  rw [featureWrites, applyWrites_append, applyWrites_append, applyWrites_append,
    applyWrites_append, applyWrites_append]
  rw [getCol_applyWrites_not_written _ _ _ (by
    intro x hx
    rcases mem_calendarWrites_fst _ x hx with h | h | h <;> rw [h] <;> simp)]
  rw [getCol_applyWrites_not_written _ _ _ (by
    intro x hx
    rw [mem_rangeBlock_fst _ x hx]
    simp)]
  rw [getCol_applyWrites_not_written _ _ _ (by
    intro x hx
    rcases List.mem_cons.1 hx with rfl | hx
    · simp
    · simp at hx)]
  rw [getCol_applyWrites_not_written _ _ _ (by
    intro x hx
    obtain ⟨u, _, _, h | h | h | h⟩ := mem_slopeWrites _ _ _ _ _ x hx <;> rw [h] <;> simp)]
  rw [getCol_applyWrites]
  refine lookupWrite_eq_of _ _ _ _
    ⟨(Col.ema s, (emaSpan s (pricesOf t)).map Entry.val),
      List.mem_flatMap.2 ⟨s, hs, by simp⟩, rfl⟩ ?_
  intro x hx he
  obtain ⟨u, hu, rfl | rfl | rfl⟩ := mem_emaWrites _ _ _ x hx
  · have : u = s := by
      injection he
    subst this
    rfl
  · exact absurd he (by simp)
  · exact absurd he (by simp)

theorem getCol_featureTable_ema_z (t : Table) (ema sl : List ℕ) (w : ℕ) (s : ℕ)
    (hs : s ∈ ema) :
    (applyWrites t (featureWrites t ema sl w)).getCol (Col.ema_z s) =
      zScoreEntries (emaSpan s (pricesOf t)) w := by
  rw [featureWrites, applyWrites_append, applyWrites_append, applyWrites_append,
    applyWrites_append, applyWrites_append]
  rw [getCol_applyWrites_not_written _ _ _ (by
    intro x hx
    rcases mem_calendarWrites_fst _ x hx with h | h | h <;> rw [h] <;> simp)]
  rw [getCol_applyWrites_not_written _ _ _ (by
    intro x hx
    rw [mem_rangeBlock_fst _ x hx]
    simp)]
  rw [getCol_applyWrites_not_written _ _ _ (by
    intro x hx
    rcases List.mem_cons.1 hx with rfl | hx
    · simp
    · simp at hx)]
  rw [getCol_applyWrites_not_written _ _ _ (by
    intro x hx
    obtain ⟨u, _, _, h | h | h | h⟩ := mem_slopeWrites _ _ _ _ _ x hx <;> rw [h] <;> simp)]
  rw [getCol_applyWrites]
  refine lookupWrite_eq_of _ _ _ _
    ⟨(Col.ema_z s, zScoreEntries (emaSpan s (pricesOf t)) w),
      List.mem_flatMap.2 ⟨s, hs, by simp⟩, rfl⟩ ?_
  intro x hx he
  obtain ⟨u, hu, rfl | rfl | rfl⟩ := mem_emaWrites _ _ _ x hx
  · exact absurd he (by simp)
  · exact absurd he (by simp)
  · have : u = s := by
      injection he
    subst this
    rfl

/-! Rolling-window and EMA facts. -/

theorem length_rolling_mean (xs : List ℚ) (w : ℕ) : (rolling_mean xs w).length = xs.length := by
  rw [rolling_mean, List.length_map, List.length_range]

theorem length_windowEnd (xs : List ℚ) (w i : ℕ) (hi : i < xs.length) :
    (windowEnd xs w i).length = min (i + 1) w := by
  rw [windowEnd, List.length_drop, List.length_take]
  omega

theorem length_zScoreEntries (xs : List ℚ) (w : ℕ) :
    (zScoreEntries xs w).length = xs.length := by
  rw [zScoreEntries, List.length_map, List.length_range]

theorem zScore_defined_iff (xs : List ℚ) (w i : ℕ) (hi : i < xs.length) (hw : 2 ≤ w) :
    ((zScoreEntries xs w).getD i Entry.nan).defined = true ↔ 1 ≤ i := by
  rw [zScoreEntries, getD_range_map _ _ _ hi]
  have hv : (rolling_var xs w).getD i none =
      if (windowEnd xs w i).length < 2 then none
      else some (((windowEnd xs w i).map fun v => (v - mean (windowEnd xs w i)) ^ 2).sum /
        (((windowEnd xs w i).length : ℚ) - 1)) := by
    rw [rolling_var, getD_range_map _ _ _ hi]
  by_cases h0 : i = 0
  · subst h0
    rw [hv, if_pos (by rw [length_windowEnd xs w 0 hi]; omega)]
    simp [Entry.defined]
  · rw [hv, if_neg (by rw [length_windowEnd xs w i hi]; omega)]
    simpa [Entry.defined] using by omega

theorem length_emaAux (alpha prev : ℚ) : ∀ l : List ℚ, (emaAux alpha prev l).length = l.length := by
  intro l
  induction l generalizing prev with
  | nil => rfl
  | cons y ys ih => simp [emaAux, ih]

theorem length_emaList (alpha : ℚ) (l : List ℚ) : (emaList alpha l).length = l.length := by
  cases l with
  | nil => rfl
  | cons y ys => simp [emaList, length_emaAux]

theorem length_emaSpan (s : ℕ) (l : List ℚ) : (emaSpan s l).length = l.length := by
  rw [emaSpan, length_emaList]

theorem emaAux_const (alpha c : ℚ) : ∀ k : ℕ,
    emaAux alpha c (List.replicate k c) = List.replicate k c := by
  intro k
  induction k with
  | zero => rfl
  | succ k ih =>
    have he : (1 - alpha) * c + alpha * c = c := by ring
    rw [List.replicate_succ]
    show ((1 - alpha) * c + alpha * c) ::
        emaAux alpha ((1 - alpha) * c + alpha * c) (List.replicate k c) = _
    rw [he, ih]

theorem emaList_const (alpha c : ℚ) (n : ℕ) :
    emaList alpha (List.replicate n c) = List.replicate n c := by
  cases n with
  | zero => rfl
  | succ n =>
    rw [List.replicate_succ]
    show c :: emaAux alpha c (List.replicate n c) = _
    rw [emaAux_const]

theorem zScoreEntries_head_nan (xs : List ℚ) (w : ℕ) (hne : 0 < xs.length) :
    (zScoreEntries xs w).getD 0 (Entry.val 0) = Entry.nan := by
  rw [zScoreEntries, getD_range_map _ _ _ hne]
  have hv : (rolling_var xs w).getD 0 none = none := by
    rw [rolling_var, getD_range_map _ _ _ hne,
      if_pos (by rw [length_windowEnd xs w 0 hne]; omega)]
  rw [hv]

/-- C4 counterexample: on prices [1, 2, 3] (finite, positive) with z-norm
window 20, the price_z column of the generated table is NaN at row 0: the
rolling standard deviation of a single sample (pandas ddof = 1) is NaN, so
min-periods = 1 does not make every rolling-statistic feature defined. -/
theorem C4_cex_price_z_nan :
    (generate_features (mkPriceTable [0, 1, 2] [1, 2, 3]) [3] [] 20).map
        (fun pr => (pr.1.getCol Col.price_z).getD 0 (Entry.val 0)) = some Entry.nan ∧
      Entry.nan ≠ Entry.val 0 := by
  refine ⟨?_, fun h => Entry.noConfusion h⟩
  rw [gf_mkPriceTable, Option.map_some']
  refine congrArg some ?_
  rw [getCol_featureTable_price_z, pricesOf_mkPriceTable]
  exact zScoreEntries_head_nan [1, 2, 3] 20 (by norm_num)

/-- C4 (amended): with min-periods 1 and a z-norm window ≥ 2, over a finite
positive price series the price_normalized column is defined at every row,
but the z-scored rolling features are not: price_z and every configured
ema_{s}m_z are NaN exactly at row 0, where the rolling sample standard
deviation (pandas ddof = 1) of a single observation is NaN, and defined at
every later row. -/
theorem C4_rolling_definedness (ts : List ℤ) (prices : List ℚ) (ema sl : List ℕ) (w : ℕ)
    (hw : 2 ≤ w) (_hpos : ∀ q ∈ prices, 0 < q) (out : Table × List Col)
    (hout : generate_features (mkPriceTable ts prices) ema sl w = some out)
    (i : ℕ) (hi : i < prices.length) :
    ((out.1.getCol Col.price_normalized).getD i Entry.nan).defined = true ∧
      (((out.1.getCol Col.price_z).getD i Entry.nan).defined = true ↔ 1 ≤ i) ∧
      ∀ s ∈ ema, (((out.1.getCol (Col.ema_z s)).getD i Entry.nan).defined = true ↔ 1 ≤ i) := by
  rw [gf_mkPriceTable] at hout
  injection hout with h
  subst h
  refine ⟨?_, ?_, ?_⟩
  · rw [getCol_featureTable_price_normalized, pricesOf_mkPriceTable]
    have h2 : i < (rolling_mean prices w).length := by rw [length_rolling_mean]; exact hi
    rw [getD_zipWith_of_lt _ prices (rolling_mean prices w) i hi h2 Entry.nan 0 0]
    rfl
  · rw [getCol_featureTable_price_z, pricesOf_mkPriceTable]
    exact zScore_defined_iff prices w i hi hw
  · intro s hs
    rw [getCol_featureTable_ema_z _ _ _ _ _ hs, pricesOf_mkPriceTable]
    exact zScore_defined_iff _ w i (by rw [length_emaSpan]; exact hi) hw

/-- Witness for C4_rolling_definedness at prices [1, 2, 3], ema span 3,
window 20, row 1. -/
theorem C4_rolling_definedness_witness :
    ∃ out, generate_features (mkPriceTable [0, 1, 2] [1, 2, 3]) [3] [] 20 = some out ∧
      (((out.1.getCol Col.price_normalized).getD 1 Entry.nan).defined = true ∧
        (((out.1.getCol Col.price_z).getD 1 Entry.nan).defined = true ↔ 1 ≤ 1) ∧
        ∀ s ∈ [3], (((out.1.getCol (Col.ema_z s)).getD 1 Entry.nan).defined = true ↔ 1 ≤ 1)) :=
  ⟨_, gf_mkPriceTable [0, 1, 2] [1, 2, 3] [3] [] 20,
    C4_rolling_definedness [0, 1, 2] [1, 2, 3] [3] [] 20 (by norm_num)
      (by
        intro q hq
        rcases List.mem_cons.1 hq with rfl | hq
        · norm_num
        rcases List.mem_cons.1 hq with rfl | hq
        · norm_num
        rcases List.mem_cons.1 hq with rfl | hq
        · norm_num
        · simp at hq)
      _ (gf_mkPriceTable [0, 1, 2] [1, 2, 3] [3] [] 20) 1 (by norm_num)⟩

/-- C7: for every configured EMA span s, the ema_{s}m column of the table
returned by generate_features equals the input price at row 0 (the
adjust=False recurrence is seeded with the first value), and on every
constant-price series it equals the price at every row. -/
theorem C7_ema_seed_and_constant (ts : List ℤ) (prices : List ℚ) (ema sl : List ℕ) (w : ℕ)
    (s : ℕ) (hs : s ∈ ema) (hne : prices ≠ []) (out : Table × List Col)
    (hout : generate_features (mkPriceTable ts prices) ema sl w = some out) :
    (out.1.getCol (Col.ema s)).getD 0 Entry.nan = Entry.val (prices.getD 0 0) ∧
      ∀ c : ℚ, (∀ q ∈ prices, q = c) →
        out.1.getCol (Col.ema s) = List.replicate prices.length (Entry.val c) := by
  rw [gf_mkPriceTable] at hout
  injection hout with h
  subst h
  constructor
  · rw [getCol_featureTable_ema _ _ _ _ _ hs, pricesOf_mkPriceTable]
    have hlen : 0 < (emaSpan s prices).length := by
      rw [length_emaSpan]
      exact List.length_pos.2 hne
    rw [getD_map_of_lt _ _ _ hlen _ 0]
    congr 1
    cases prices with
    | nil => exact absurd rfl hne
    | cons y ys => rfl
  · intro c hc
    have hrep : prices = List.replicate prices.length c := List.eq_replicate_length.2 hc
    rw [getCol_featureTable_ema _ _ _ _ _ hs, pricesOf_mkPriceTable]
    conv_lhs => rw [hrep]
    rw [emaSpan, emaList_const, List.map_replicate]

/-- Witness for C7_ema_seed_and_constant at the constant series [2, 2, 2]
with ema span 3. -/
theorem C7_ema_seed_and_constant_witness :
    ∃ out, generate_features (mkPriceTable [0, 1, 2] [2, 2, 2]) [3] [] 20 = some out ∧
      ((out.1.getCol (Col.ema 3)).getD 0 Entry.nan =
          Entry.val (([2, 2, 2] : List ℚ).getD 0 0) ∧
        ∀ c : ℚ, (∀ q ∈ ([2, 2, 2] : List ℚ), q = c) →
          out.1.getCol (Col.ema 3) =
            List.replicate ([2, 2, 2] : List ℚ).length (Entry.val c)) :=
  ⟨_, gf_mkPriceTable [0, 1, 2] [2, 2, 2] [3] [] 20,
    C7_ema_seed_and_constant [0, 1, 2] [2, 2, 2] [3] [] 20 3 (by simp) (by simp)
      _ (gf_mkPriceTable [0, 1, 2] [2, 2, 2] [3] [] 20)⟩

theorem ema_not_in_base_or_emaWriteNames (ts : List ℤ) (prices : List ℚ) (ema : List ℕ)
    (s : ℕ) (hnot : s ∉ ema) :
    Col.ema s ∉ (mkPriceTable ts prices).colNames ++ emaWriteNames ema := by
  intro h
  rcases List.mem_append.1 h with h | h
  · rw [colNames_mkPriceTable] at h
    simp at h
  · exact ema_not_mem_emaWriteNames ema s hnot h

theorem featureWrites_no_slope_cols (ts : List ℤ) (prices : List ℚ) (ema sl : List ℕ)
    (w s : ℕ) (hnot : s ∉ ema) :
    ∀ x ∈ featureWrites (mkPriceTable ts prices) ema sl w,
      x.1 ≠ Col.slope_ema s ∧ x.1 ≠ Col.slope_ema_normalized s ∧
        x.1 ≠ Col.slope2_ema s ∧ x.1 ≠ Col.slope2_ema_normalized s := by
  have hcond := ema_not_in_base_or_emaWriteNames ts prices ema s hnot
  intro x hx
  rw [featureWrites] at hx
  rcases List.mem_append.1 hx with hx | hcal
  · rcases List.mem_append.1 hx with hx | hrange
    · rcases List.mem_append.1 hx with hx | hpz
      · rcases List.mem_append.1 hx with hx | hslope
        · rcases List.mem_append.1 hx with hW0 | hema
          · rcases List.mem_cons.1 hW0 with rfl | hW0
            · exact ⟨by simp, by simp, by simp, by simp⟩
            rcases List.mem_cons.1 hW0 with rfl | hW0
            · exact ⟨by simp, by simp, by simp, by simp⟩
            · simp at hW0
          · obtain ⟨u, _, h | h | h⟩ := mem_emaWrites _ _ _ x hema <;> rw [h] <;>
              exact ⟨by simp, by simp, by simp, by simp⟩
        · obtain ⟨u, hu, hcondu, h | h | h | h⟩ := mem_slopeWrites _ _ _ _ _ x hslope <;>
            rw [h] <;> refine ⟨?_, ?_, ?_, ?_⟩ <;> intro he <;>
            first
              | (injection he with hus; subst hus; exact hcond hcondu)
              | (cases he)
      · rcases List.mem_cons.1 hpz with rfl | h
        · exact ⟨by simp, by simp, by simp, by simp⟩
        · simp at h
    · rw [mem_rangeBlock_fst _ x hrange]
      exact ⟨by simp, by simp, by simp, by simp⟩
  · rcases mem_calendarWrites_fst _ x hcal with h | h | h <;> rw [h] <;>
      exact ⟨by simp, by simp, by simp, by simp⟩

theorem featureNames_no_slope_cols (ts : List ℤ) (prices : List ℚ) (ema sl : List ℕ)
    (s : ℕ) (hnot : s ∉ ema) (c : Col)
    (hc : c = Col.slope_ema_normalized s ∨ c = Col.slope2_ema_normalized s) :
    c ∉ featureNames (mkPriceTable ts prices) ema sl := by
  have hcond := ema_not_in_base_or_emaWriteNames ts prices ema s hnot
  intro h
  rw [featureNames] at h
  rcases List.mem_append.1 h with h | h
  · rcases List.mem_append.1 h with h | h
    · rcases List.mem_append.1 h with h | h
      · rcases List.mem_append.1 h with h | h
        · rcases List.mem_append.1 h with h | h
          · rcases hc with rfl | rfl <;> simp at h
          · obtain ⟨u, _, hmem⟩ := List.mem_flatMap.1 h
            rcases hc with rfl | rfl <;> simp at hmem
        · obtain ⟨u, hu, hmem⟩ := List.mem_flatMap.1 h
          split at hmem
          · next hcondu =>
            rcases List.mem_cons.1 hmem with rfl | hmem
            · rcases hc with hc | hc
              · injection hc with hus
                subst hus
                exact hcond hcondu
              · cases hc
            rcases List.mem_cons.1 hmem with rfl | hmem
            · rcases hc with hc | hc
              · cases hc
              · injection hc with hus
                subst hus
                exact hcond hcondu
            · simp at hmem
          · simp at hmem
      · rcases hc with rfl | rfl <;> simp at h
    · split at h
      · rcases hc with rfl | rfl <;> simp at h
      · simp at h
  · rcases hc with rfl | rfl <;> simp at h

/-- C8: a slope span s configured without a matching EMA span produces no
slope columns at all: neither the raw slope_ema_{s}m / slope2_ema_{s}m nor
the normalized variants appear among the output table's columns, none enters
the feature-name list, and generate_features still returns successfully. -/
theorem C8_slope_span_skipped (ts : List ℤ) (prices : List ℚ) (ema sl : List ℕ) (w s : ℕ)
    (_hs : s ∈ sl) (hnot : s ∉ ema) (out : Table × List Col)
    (hout : generate_features (mkPriceTable ts prices) ema sl w = some out) :
    Col.slope_ema s ∉ out.1.colNames ∧ Col.slope_ema_normalized s ∉ out.1.colNames ∧
      Col.slope2_ema s ∉ out.1.colNames ∧ Col.slope2_ema_normalized s ∉ out.1.colNames ∧
      Col.slope_ema_normalized s ∉ out.2 ∧ Col.slope2_ema_normalized s ∉ out.2 := by
  rw [gf_mkPriceTable] at hout
  injection hout with h
  subst h
  have hbase : ∀ c : Col, c ∈ (mkPriceTable ts prices).colNames →
      c = Col.timestamp ∨ c = Col.close := by
    intro c hc
    rw [colNames_mkPriceTable] at hc
    rcases List.mem_cons.1 hc with rfl | hc
    · exact Or.inl rfl
    rcases List.mem_cons.1 hc with rfl | hc
    · exact Or.inr rfl
    · simp at hc
  have hw := featureWrites_no_slope_cols ts prices ema sl w s hnot
  refine ⟨?_, ?_, ?_, ?_,
    featureNames_no_slope_cols ts prices ema sl s hnot _ (Or.inl rfl),
    featureNames_no_slope_cols ts prices ema sl s hnot _ (Or.inr rfl)⟩ <;>
    · intro hmem
      rcases (mem_colNames_applyWrites _ _ _).1 hmem with hb | ⟨x, hx, he⟩
      · rcases hbase _ hb with h | h <;> cases h
      · obtain ⟨h1, h2, h3, h4⟩ := hw x hx
        first
          | exact h1 he
          | exact h2 he
          | exact h3 he
          | exact h4 he

/-- Witness for C8_slope_span_skipped with ema spans [3] and slope spans
[5]. -/
theorem C8_slope_span_skipped_witness :
    ∃ out, generate_features (mkPriceTable [0, 1, 2] [1, 2, 3]) [3] [5] 20 = some out ∧
      (Col.slope_ema 5 ∉ out.1.colNames ∧ Col.slope_ema_normalized 5 ∉ out.1.colNames ∧
        Col.slope2_ema 5 ∉ out.1.colNames ∧ Col.slope2_ema_normalized 5 ∉ out.1.colNames ∧
        Col.slope_ema_normalized 5 ∉ out.2 ∧ Col.slope2_ema_normalized 5 ∉ out.2) :=
  ⟨_, gf_mkPriceTable [0, 1, 2] [1, 2, 3] [3] [5] 20,
    C8_slope_span_skipped [0, 1, 2] [1, 2, 3] [3] [5] 20 5 (by simp) (by simp)
      _ (gf_mkPriceTable [0, 1, 2] [1, 2, 3] [3] [5] 20)⟩

theorem featureNames_no_raw_cols (ts : List ℤ) (prices : List ℚ) (ema sl : List ℕ)
    (c : Col) (hc : (∃ u, c = Col.ema u) ∨ (∃ u, c = Col.slope_ema u) ∨
      (∃ u, c = Col.slope2_ema u)) :
    c ∉ featureNames (mkPriceTable ts prices) ema sl := by
  intro h
  rw [featureNames] at h
  rcases List.mem_append.1 h with h | h
  · rcases List.mem_append.1 h with h | h
    · rcases List.mem_append.1 h with h | h
      · rcases List.mem_append.1 h with h | h
        · rcases List.mem_append.1 h with h | h
          · rcases hc with ⟨u, rfl⟩ | ⟨u, rfl⟩ | ⟨u, rfl⟩ <;> simp at h
          · obtain ⟨v, _, hmem⟩ := List.mem_flatMap.1 h
            rcases hc with ⟨u, rfl⟩ | ⟨u, rfl⟩ | ⟨u, rfl⟩ <;> simp at hmem
        · obtain ⟨v, _, hmem⟩ := List.mem_flatMap.1 h
          split at hmem
          · rcases hc with ⟨u, rfl⟩ | ⟨u, rfl⟩ | ⟨u, rfl⟩ <;> simp at hmem
          · simp at hmem
      · rcases hc with ⟨u, rfl⟩ | ⟨u, rfl⟩ | ⟨u, rfl⟩ <;> simp at h
    · split at h
      · rcases hc with ⟨u, rfl⟩ | ⟨u, rfl⟩ | ⟨u, rfl⟩ <;> simp at h
      · simp at h
  · rcases hc with ⟨u, rfl⟩ | ⟨u, rfl⟩ | ⟨u, rfl⟩ <;> simp at h

theorem emaWrite_mem_featureWrites (t : Table) (ema sl : List ℕ) (w s : ℕ) (hs : s ∈ ema) :
    (Col.ema s, (emaSpan s (pricesOf t)).map Entry.val) ∈ featureWrites t ema sl w := by
  rw [featureWrites]
  refine List.mem_append.2 (Or.inl (List.mem_append.2 (Or.inl (List.mem_append.2 (Or.inl
    (List.mem_append.2 (Or.inl (List.mem_append.2 (Or.inr ?_)))))))))
  exact List.mem_flatMap.2 ⟨s, hs, by simp⟩

theorem slopeWrite_mem_featureWrites (ts : List ℤ) (prices : List ℚ) (ema sl : List ℕ)
    (w s : ℕ) (hsl : s ∈ sl) (hema : s ∈ ema) (x : Col × List Entry)
    (hx : x = (Col.slope_ema s,
        (slopeBase (mkPriceTable ts prices) (pricesOf (mkPriceTable ts prices)) w ema s).map
          entryOfOpt) ∨
      x = (Col.slope2_ema s,
        (diffO (slopeBase (mkPriceTable ts prices) (pricesOf (mkPriceTable ts prices)) w ema
          s)).map entryOfOpt)) :
    x ∈ featureWrites (mkPriceTable ts prices) ema sl w := by
  rw [featureWrites]
  refine List.mem_append.2 (Or.inl (List.mem_append.2 (Or.inl (List.mem_append.2 (Or.inl
    (List.mem_append.2 (Or.inr ?_)))))))
  refine List.mem_flatMap.2 ⟨s, hsl, ?_⟩
  rw [if_pos (List.mem_append.2 (Or.inr (ema_mem_emaWriteNames ema s hema)))]
  rcases hx with rfl | rfl <;> simp

theorem featureNames_shape (ts : List ℤ) (prices : List ℚ) (ema sl : List ℕ) :
    ∀ c ∈ featureNames (mkPriceTable ts prices) ema sl,
      c = Col.price_normalized ∨ c = Col.return_1m ∨
        (∃ s ∈ ema, c = Col.ema_normalized s ∨ c = Col.ema_z s) ∨
        (∃ s ∈ sl, c = Col.slope_ema_normalized s ∨ c = Col.slope2_ema_normalized s) ∨
        c = Col.price_z ∨ c = Col.price_range ∨
        c = Col.minute_of_day ∨ c = Col.day_of_week ∨ c = Col.hour_of_day := by
  intro c h
  rw [featureNames] at h
  rcases List.mem_append.1 h with h | h
  · rcases List.mem_append.1 h with h | h
    · rcases List.mem_append.1 h with h | h
      · rcases List.mem_append.1 h with h | h
        · rcases List.mem_append.1 h with h | h
          · rcases List.mem_cons.1 h with rfl | h
            · exact Or.inl rfl
            rcases List.mem_cons.1 h with rfl | h
            · exact Or.inr (Or.inl rfl)
            · simp at h
          · obtain ⟨u, hu, hmem⟩ := List.mem_flatMap.1 h
            rcases List.mem_cons.1 hmem with rfl | hmem
            · exact Or.inr (Or.inr (Or.inl ⟨u, hu, Or.inl rfl⟩))
            rcases List.mem_cons.1 hmem with rfl | hmem
            · exact Or.inr (Or.inr (Or.inl ⟨u, hu, Or.inr rfl⟩))
            · simp at hmem
        · obtain ⟨u, hu, hmem⟩ := List.mem_flatMap.1 h
          split at hmem
          · rcases List.mem_cons.1 hmem with rfl | hmem
            · exact Or.inr (Or.inr (Or.inr (Or.inl ⟨u, hu, Or.inl rfl⟩)))
            rcases List.mem_cons.1 hmem with rfl | hmem
            · exact Or.inr (Or.inr (Or.inr (Or.inl ⟨u, hu, Or.inr rfl⟩)))
            · simp at hmem
          · simp at hmem
      · rcases List.mem_cons.1 h with rfl | h
        · exact Or.inr (Or.inr (Or.inr (Or.inr (Or.inl rfl))))
        · simp at h
    · split at h
      · rcases List.mem_cons.1 h with rfl | h
        · exact Or.inr (Or.inr (Or.inr (Or.inr (Or.inr (Or.inl rfl)))))
        · simp at h
      · simp at h
  · rcases List.mem_cons.1 h with rfl | h
    · exact Or.inr (Or.inr (Or.inr (Or.inr (Or.inr (Or.inr (Or.inl rfl))))))
    rcases List.mem_cons.1 h with rfl | h
    · exact Or.inr (Or.inr (Or.inr (Or.inr (Or.inr (Or.inr (Or.inr (Or.inl rfl)))))))
    rcases List.mem_cons.1 h with rfl | h
    · exact Or.inr (Or.inr (Or.inr (Or.inr (Or.inr (Or.inr (Or.inr (Or.inr rfl)))))))
    · simp at h

/-- C10: the raw intermediate columns ema_{s}m for every configured span,
and slope_ema_{s}m / slope2_ema_{s}m for every effective slope span, are
appended to the returned table but excluded from the feature-name list; the
list holds only the normalized and z-scored variants together with
price_normalized, return_1m, price_z, price_range and the calendar
features. -/
theorem C10_raw_columns_not_features (ts : List ℤ) (prices : List ℚ) (ema sl : List ℕ)
    (w : ℕ) (out : Table × List Col)
    (hout : generate_features (mkPriceTable ts prices) ema sl w = some out) :
    (∀ s ∈ ema, Col.ema s ∈ out.1.colNames ∧ Col.ema s ∉ out.2) ∧
      (∀ s ∈ sl, s ∈ ema →
        Col.slope_ema s ∈ out.1.colNames ∧ Col.slope2_ema s ∈ out.1.colNames ∧
          Col.slope_ema s ∉ out.2 ∧ Col.slope2_ema s ∉ out.2) ∧
      ∀ c ∈ out.2,
        c = Col.price_normalized ∨ c = Col.return_1m ∨
          (∃ s ∈ ema, c = Col.ema_normalized s ∨ c = Col.ema_z s) ∨
          (∃ s ∈ sl, c = Col.slope_ema_normalized s ∨ c = Col.slope2_ema_normalized s) ∨
          c = Col.price_z ∨ c = Col.price_range ∨
          c = Col.minute_of_day ∨ c = Col.day_of_week ∨ c = Col.hour_of_day := by
  rw [gf_mkPriceTable] at hout
  injection hout with h
  subst h
  refine ⟨?_, ?_, featureNames_shape ts prices ema sl⟩
  · intro s hs
    refine ⟨?_, featureNames_no_raw_cols ts prices ema sl _ (Or.inl ⟨s, rfl⟩)⟩
    exact (mem_colNames_applyWrites _ _ _).2
      (Or.inr ⟨_, emaWrite_mem_featureWrites (mkPriceTable ts prices) ema sl w s hs, rfl⟩)
  · intro s hsl hema
    refine ⟨?_, ?_,
      featureNames_no_raw_cols ts prices ema sl _ (Or.inr (Or.inl ⟨s, rfl⟩)),
      featureNames_no_raw_cols ts prices ema sl _ (Or.inr (Or.inr ⟨s, rfl⟩))⟩
    · exact (mem_colNames_applyWrites _ _ _).2
        (Or.inr ⟨_, slopeWrite_mem_featureWrites ts prices ema sl w s hsl hema _
          (Or.inl rfl), rfl⟩)
    · exact (mem_colNames_applyWrites _ _ _).2
        (Or.inr ⟨_, slopeWrite_mem_featureWrites ts prices ema sl w s hsl hema _
          (Or.inr rfl), rfl⟩)

/-- Witness for C10_raw_columns_not_features with ema spans [3] and slope
spans [3]. -/
theorem C10_raw_columns_not_features_witness :
    ∃ out, generate_features (mkPriceTable [0, 1, 2] [1, 2, 3]) [3] [3] 20 = some out ∧
      ((∀ s ∈ [3], Col.ema s ∈ out.1.colNames ∧ Col.ema s ∉ out.2) ∧
        (∀ s ∈ [3], s ∈ [3] →
          Col.slope_ema s ∈ out.1.colNames ∧ Col.slope2_ema s ∈ out.1.colNames ∧
            Col.slope_ema s ∉ out.2 ∧ Col.slope2_ema s ∉ out.2) ∧
        ∀ c ∈ out.2,
          c = Col.price_normalized ∨ c = Col.return_1m ∨
            (∃ s ∈ [3], c = Col.ema_normalized s ∨ c = Col.ema_z s) ∨
            (∃ s ∈ [3], c = Col.slope_ema_normalized s ∨ c = Col.slope2_ema_normalized s) ∨
            c = Col.price_z ∨ c = Col.price_range ∨
            c = Col.minute_of_day ∨ c = Col.day_of_week ∨ c = Col.hour_of_day) :=
  ⟨_, gf_mkPriceTable [0, 1, 2] [1, 2, 3] [3] [3] 20,
    C10_raw_columns_not_features [0, 1, 2] [1, 2, 3] [3] [3] 20
      _ (gf_mkPriceTable [0, 1, 2] [1, 2, 3] [3] [3] 20)⟩

/-! Heap lemmas for the frame (no-mutation) claim. -/

theorem heapWrites_cons (h : List Table) (r : ℕ) (cv : Col × List Entry)
    (ws : List (Col × List Entry)) :
    heapWrites h r (cv :: ws) = heapWrites (heapWrite h r cv) r ws := rfl

theorem length_heapWrite (h : List Table) (r : ℕ) (cv : Col × List Entry) :
    (heapWrite h r cv).length = h.length := by
  rw [heapWrite, List.length_set]

theorem getD_heapWrites_ne : ∀ (ws : List (Col × List Entry)) (h : List Table) (r1 r : ℕ),
    r ≠ r1 → (heapWrites h r1 ws).getD r default = h.getD r default := by
  intro ws
  induction ws with
  | nil => intro h r1 r _; rfl
  | cons cv ws ih =>
    intro h r1 r hr
    rw [heapWrites_cons, ih _ r1 r hr, heapWrite, List.getD_eq_getElem?_getD,
      List.getElem?_set_ne (Ne.symm hr), ← List.getD_eq_getElem?_getD]

theorem getD_append_left_of_lt (h : List Table) (t : Table) (r : ℕ) (hr : r < h.length) :
    (h ++ [t]).getD r default = h.getD r default := by
  rw [List.getD_eq_getElem?_getD, List.getElem?_append_left hr, ← List.getD_eq_getElem?_getD]

theorem getD_concat_length (h : List Table) (t : Table) :
    (h ++ [t]).getD h.length default = t := by
  rw [List.getD_eq_getElem?_getD, List.getElem?_concat_length]
  rfl

theorem getD_heapWrites_self : ∀ (ws : List (Col × List Entry)) (h : List Table) (r1 : ℕ),
    r1 < h.length →
    (heapWrites h r1 ws).getD r1 default = applyWrites (h.getD r1 default) ws := by
  intro ws
  induction ws with
  | nil => intro h r1 _; rfl
  | cons cv ws ih =>
    intro h r1 hr
    rw [heapWrites_cons, ih (heapWrite h r1 cv) r1 (by rw [length_heapWrite]; exact hr),
      applyWrites_cons]
    congr 1
    rw [heapWrite, List.getD_eq_getElem?_getD, List.getElem?_set_self hr]
    rfl

/-- C9: with the two entry points embedded as heap transformers (the
caller's frame at address r, `df = df.copy()` allocating a fresh address,
all column assignments mutating the fresh address), the caller's table is
unchanged after either call, and the fresh address holds exactly the
enriched table the pure embedding computes. -/
theorem C9_no_inplace_mutation (h : List Table) (r : ℕ) (hr : r < h.length)
    (periods ema sl : List ℕ) (w : ℕ) :
    (add_normalized_trend_direction_heap h r periods).1.getD r default = h.getD r default ∧
      (generate_features_heap h r ema sl w).1.getD r default = h.getD r default ∧
      (add_normalized_trend_direction_heap h r periods).1.getD
          (add_normalized_trend_direction_heap h r periods).2 default =
        add_normalized_trend_direction (h.getD r default) periods ∧
      ∀ pr, generate_features (h.getD r default) ema sl w = some pr →
        (generate_features_heap h r ema sl w).1.getD
          (generate_features_heap h r ema sl w).2 default = pr.1 := by
  have hrne : r ≠ h.length := by omega
  refine ⟨?_, ?_, ?_, ?_⟩
  · rw [add_normalized_trend_direction_heap]
    exact (getD_heapWrites_ne _ _ _ _ hrne).trans (getD_append_left_of_lt h _ r hr)
  · rw [generate_features_heap]
    split
    · exact (getD_heapWrites_ne _ _ _ _ hrne).trans (getD_append_left_of_lt h _ r hr)
    · exact getD_append_left_of_lt h _ r hr
  · rw [add_normalized_trend_direction_heap]
    rw [getD_heapWrites_self _ _ _ (by simp), getD_concat_length]
    rfl
  · intro pr hpr
    rw [generate_features] at hpr
    split at hpr
    · next ht =>
      injection hpr with hpr
      rw [generate_features_heap, if_pos ht,
        getD_heapWrites_self _ _ _ (by simp), getD_concat_length, ← hpr]
    · exact absurd hpr (by simp)

/-- Witness for C9_no_inplace_mutation on the one-table heap
[mkPriceTable [0] [1]] at address 0. -/
theorem C9_no_inplace_mutation_witness :
    (add_normalized_trend_direction_heap [mkPriceTable [0] [1]] 0 [2]).1.getD 0 default =
        ([mkPriceTable [0] [1]] : List Table).getD 0 default ∧
      (generate_features_heap [mkPriceTable [0] [1]] 0 [3] [] 20).1.getD 0 default =
        ([mkPriceTable [0] [1]] : List Table).getD 0 default ∧
      (add_normalized_trend_direction_heap [mkPriceTable [0] [1]] 0 [2]).1.getD
          (add_normalized_trend_direction_heap [mkPriceTable [0] [1]] 0 [2]).2 default =
        add_normalized_trend_direction
          (([mkPriceTable [0] [1]] : List Table).getD 0 default) [2] ∧
      ∀ pr, generate_features (([mkPriceTable [0] [1]] : List Table).getD 0 default)
          [3] [] 20 = some pr →
        (generate_features_heap [mkPriceTable [0] [1]] 0 [3] [] 20).1.getD
          (generate_features_heap [mkPriceTable [0] [1]] 0 [3] [] 20).2 default = pr.1 :=
  C9_no_inplace_mutation [mkPriceTable [0] [1]] 0 (by simp) [2] [3] [] 20

/-- Witness for C6_direction_matches_sign at prices [1, 2, 3], period 2,
row 0, where the trend target is 4/5 and the direction is +1. -/
theorem C6_direction_matches_sign_witness :
    ((add_normalized_trend_direction (mkPriceTable [0, 1, 2] [1, 2, 3]) [2]).getCol
        (Col.target_direction 2)).getD 0 Entry.nan =
      Entry.val (if threshold < (4 / 5 : ℚ) then 1
        else if (4 / 5 : ℚ) < -threshold then -1 else 0) :=
  C6_direction_matches_sign [0, 1, 2] [1, 2, 3] 2 0 (4 / 5) (by norm_num)
    (by rw [add_single_getCol_trend]
        norm_num [compute_normalized_slope, npVar, mean, xAxis, fwdWindow, normSlopeAt,
          slopeAt, List.range_succ, List.getD, entryOfOpt])

end Prep
